import Mathlib

/-!
Verification of the typst-lib-wrapper runtime data layer.

Shallow embedding of the repository's source files:
- `src/files.rs`   : `LazyCell`, `LazyFile` (lazy change-aware file cache)
- `src/package.rs` : `prepare_package`, `download_package`
- `src/fonts.rs`   : `FontCache`, `LazyFont`
- `src/compiler.rs`: the page-encoding phase of `compile_png` / `compile_svg`
  and the `World` callbacks `Compiler::source` / `Compiler::file`

I/O (disk reads, HTTP) is abstracted as environment parameters; observable
effects that the specification talks about (whether the loader ran, which
arguments the transform received, whether the network was touched, which
filesystem writes happened) are recorded as explicit fields of the result

structures so that theorems can speak about them.
-/

namespace TypstWrapper

/-- PackageSpec from typst-syntax (namespace, name, version triple),
compared by value, as used by `src/package.rs`. -/
structure PackageSpec where
  ns : String
  name : String
  version : String
deriving DecidableEq, Repr

/-- PackageError from typst (the variants produced in `src/package.rs`):
`NotFound(spec)`, `NetworkFailed(msg)`, `MalformedArchive(msg)`. -/
inductive PackageErr where
  | notFound (spec : PackageSpec)
  | networkFailed (msg : String)
  | malformedArchive (msg : String)
deriving DecidableEq, Repr

/-- FileError from typst, restricted to the variants that the code in
`src/files.rs` can produce. -/
inductive FileErr where
  | notFound (path : String)
  | accessDenied
  | isDirectory
  | invalidUtf8
  | package (err : PackageErr)
  | other (msg : String)
deriving DecidableEq, Repr

instance exceptDecEq {ε α : Type} [DecidableEq ε] [DecidableEq α] :
    DecidableEq (Except ε α) := fun x y =>
  match x, y with
  | .ok a, .ok b =>
    if h : a = b then isTrue (by rw [h]) else isFalse (fun hh => h (Except.ok.inj hh))
  | .ok _, .error _ => isFalse (fun hh => Except.noConfusion hh)
  | .error _, .ok _ => isFalse (fun hh => Except.noConfusion hh)
  | .error a, .error b =>
    if h : a = b then isTrue (by rw [h]) else isFalse (fun hh => h (Except.error.inj hh))

/-- FileResult from typst: `Result<T, FileError>`. -/
abbrev FileRes (T : Type) := Except FileErr T

/-- Rust `Result::ok`: keep a success, drop an error. -/
def resultOk {T : Type} : FileRes T → Option T
  | .ok v => some v
  | .error _ => none

/-- LazyCell from `src/files.rs` (same as typst-cli's SlotCell):
the processed data, a 128-bit fingerprint of the raw contents or
access error, and the per-round accessed flag. -/
structure LazyCell (T : Type) where
  data : Option (FileRes T)
  fingerprint : Nat
  accessed : Bool
deriving DecidableEq, Repr

/-- `LazyCell::new()`: empty cell. -/
def LazyCell.new {T : Type} : LazyCell T := ⟨none, 0, false⟩

/-- Observable outcome of one `LazyCell::get_or_init` call: the returned
value, the updated cell, whether `load` was invoked, and the list of
argument pairs `(bytes, prev)` that the transform was invoked with. -/
structure GetOrInitOut (T : Type) where
  result : FileRes T
  cell : LazyCell T
  loadInvoked : Bool
  transformCalls : List (List Nat × Option T)
deriving DecidableEq, Repr

/-- The tail of `get_or_init` after both short-circuits failed
(`src/files.rs` lines 62-66): take the previous successful value,
run the load result through the transform, store and return it.
When the load failed, the transform is never invoked and the error is
stored as the cached data. -/
def LazyCell.process {T : Type} (cell2 : LazyCell T) (prev : Option T)
    (loadResult : FileRes (List Nat))
    (transform : List Nat → Option T → FileRes T) : GetOrInitOut T :=
  match loadResult with
  | .error e => ⟨.error e, { cell2 with data := some (.error e) }, true, []⟩
  | .ok bytes =>
    let value := transform bytes prev
    ⟨value, { cell2 with data := some value }, true, [(bytes, prev)]⟩

/-- `LazyCell::get_or_init` from `src/files.rs` (lines 39-67).
`loadResult` is the value the `load` closure would produce when invoked;
`hash` models `typst::util::hash128` over the whole `Result`.
Control flow mirrors the source: (1) if already accessed this round and a
cached result exists, return it without loading; (2) otherwise load and
hash; if the fingerprint is unchanged and a cached result exists, return
it without transforming; (3) otherwise recompute via the transform from
the previous successful value. -/
def LazyCell.get_or_init {T : Type} (cell : LazyCell T)
    (hash : FileRes (List Nat) → Nat)
    (loadResult : FileRes (List Nat))
    (transform : List Nat → Option T → FileRes T) : GetOrInitOut T :=
  match cell.accessed, cell.data with
  | true, some d => ⟨d, { cell with accessed := true }, false, []⟩
  | _, _ =>
    let fingerprint := hash loadResult
    let cell2 : LazyCell T := { cell with accessed := true, fingerprint := fingerprint }
    if cell.fingerprint = fingerprint then
      match cell.data with
      | some d => ⟨d, cell2, true, []⟩
      | none => LazyCell.process cell2 (Option.bind cell.data resultOk) loadResult transform
    else
      LazyCell.process cell2 (Option.bind cell.data resultOk) loadResult transform

/-- FileId from typst-syntax: an optional package reference plus a
root-relative virtual path (modelled as its UTF-8 text). Compared by value. -/
structure FileIdM where
  pack : Option PackageSpec
  vpath : String
deriving DecidableEq, Repr

/-- Source from typst-syntax, as observed by the code in `src/files.rs`:
the file id, the decoded text, and a counter of in-place `replace`
edits modelling the accumulated incremental-reparse state that
`Source::replace` preserves and `Source::new` starts from scratch. -/
structure Source where
  id : FileIdM
  text : List Char
  revisions : Nat
deriving DecidableEq, Repr

/-- `Source::new(id, text)`: a freshly built source with no accumulated
incremental state. -/
def Source.new (id : FileIdM) (text : List Char) : Source := ⟨id, text, 0⟩

/-- `Source::replace(text)`: in-place edit of an existing source, keeping
its identity and accumulating incremental state. -/
def Source.replace (s : Source) (text : List Char) : Source :=
  { s with text := text, revisions := s.revisions + 1 }

/-- UTF-8 BOM strip from `LazyFile::decode_utf8`:
`buf.strip_prefix(b"\xef\xbb\xbf").unwrap_or(buf)`. -/
def stripBom (buf : List Nat) : List Nat :=
  match buf with
  | 0xEF :: 0xBB :: 0xBF :: rest => rest
  | _ => buf

/-- UTF-8 continuation byte (`10xxxxxx`). -/
def isUtf8Cont (b : Nat) : Bool := 0x80 ≤ b && b ≤ 0xBF

/-- Strict UTF-8 validation and decoding, mirroring Rust's
`str::from_utf8` acceptance (RFC 3629: no overlong forms, no surrogates,
max U+10FFFF). `fuel` is an upper bound on the number of decoded
characters; it is instantiated with the byte count. -/
def utf8DecodeAux : Nat → List Nat → Option (List Char)
  | _, [] => some []
  | 0, _ :: _ => none
  | fuel + 1, b0 :: rest =>
    if b0 ≤ 0x7F then
      (utf8DecodeAux fuel rest).map (fun cs => Char.ofNat b0 :: cs)
    else if 0xC2 ≤ b0 && b0 ≤ 0xDF then
      match rest with
      | b1 :: rest1 =>
        if isUtf8Cont b1 then
          (utf8DecodeAux fuel rest1).map (fun cs =>
            Char.ofNat ((b0 - 0xC0) * 64 + (b1 - 0x80)) :: cs)
        else none
      | [] => none
    else if 0xE0 ≤ b0 && b0 ≤ 0xEF then
      match rest with
      | b1 :: b2 :: rest2 =>
        let firstOk :=
          if b0 = 0xE0 then 0xA0 ≤ b1 && b1 ≤ 0xBF
          else if b0 = 0xED then 0x80 ≤ b1 && b1 ≤ 0x9F
          else isUtf8Cont b1
        if firstOk && isUtf8Cont b2 then
          (utf8DecodeAux fuel rest2).map (fun cs =>
            Char.ofNat ((b0 - 0xE0) * 4096 + (b1 - 0x80) * 64 + (b2 - 0x80)) :: cs)
        else none
      | _ => none
    else if 0xF0 ≤ b0 && b0 ≤ 0xF4 then
      match rest with
      | b1 :: b2 :: b3 :: rest3 =>
        let firstOk :=
          if b0 = 0xF0 then 0x90 ≤ b1 && b1 ≤ 0xBF
          else if b0 = 0xF4 then 0x80 ≤ b1 && b1 ≤ 0x8F
          else isUtf8Cont b1
        if firstOk && isUtf8Cont b2 && isUtf8Cont b3 then
          (utf8DecodeAux fuel rest3).map (fun cs =>
            Char.ofNat
              ((b0 - 0xF0) * 262144 + (b1 - 0x80) * 4096 + (b2 - 0x80) * 64 + (b3 - 0x80)) :: cs)
        else none
      | _ => none
    else none

/-- `LazyFile::decode_utf8` from `src/files.rs`: strip an optional BOM,
then decode UTF-8, failing with typst's `FileError::InvalidUtf8`. -/
def decodeUtf8 (buf : List Nat) : FileRes (List Char) :=
  let stripped := stripBom buf
  match utf8DecodeAux stripped.length stripped with
  | some text => .ok text
  | none => .error .invalidUtf8

/-- The `transform` closure of `LazyFile::source` (`src/files.rs` lines
142-150): decode UTF-8; if a previous successfully decoded source exists,
update it in place via `Source::replace`, otherwise build a fresh
`Source::new`. -/
def sourceTransform (id : FileIdM) (data : List Nat) (prev : Option Source) :
    FileRes Source :=
  match decodeUtf8 data with
  | .error e => .error e
  | .ok text =>
    match prev with
    | some p => .ok (p.replace text)
    | none => .ok (Source.new id text)

/- ## Package resolver (`src/package.rs`) -/

/-- Outcome of the HTTP GET + body read + unpack sequence inside
`download_package`, enumerating the branch conditions of the source:
a 404 status, another transport error, a body-read failure, a tar/gzip
unpack failure, or full success. -/
inductive DownloadOutcome where
  | httpStatus404
  | httpOtherError (msg : String)
  | bodyReadError (msg : String)
  | unpackError (msg : String)
  | unpackOk
deriving DecidableEq, Repr

/-- Filesystem writes that `download_package` can perform on the package
directory: the (possibly partial) unpack write, and `remove_dir_all`. -/
inductive FsAction where
  | unpackWrite
  | removeDirAll
deriving DecidableEq, Repr

/-- Whether the package directory exists after a sequence of filesystem
actions, starting from `initial`. -/
def dirExistsAfter (initial : Bool) (actions : List FsAction) : Bool :=
  actions.foldl
    (fun _ a => match a with | .unpackWrite => true | .removeDirAll => false)
    initial

/-- `download_package` from `src/package.rs` (lines 91-130), abstracted
over the I/O outcome: a 404 maps to `NotFound`, any other transport or
body-read failure maps to `NetworkFailed`, an unpack failure deletes the
partially written directory (`remove_dir_all`) and maps to
`MalformedArchive`; success leaves the unpacked directory in place.
The second component is the trace of filesystem writes performed on the
package directory. -/
def download_package (spec : PackageSpec) (outcome : DownloadOutcome) :
    Except PackageErr Unit × List FsAction :=
  match outcome with
  | .httpStatus404 => (.error (.notFound spec), [])
  | .httpOtherError msg => (.error (.networkFailed msg), [])
  | .bodyReadError msg => (.error (.networkFailed msg), [])
  | .unpackError msg => (.error (.malformedArchive msg), [.unpackWrite, .removeDirAll])
  | .unpackOk => (.ok (), [.unpackWrite])

/-- Environment for `prepare_package`: the user's data and cache
directories (`dirs::data_dir()` / `dirs::cache_dir()`, as path-component
lists), the `exists()` predicate of the on-disk state before the call,
and the outcome a download attempt would have. -/
structure PkgEnv where
  dataDir : Option (List String)
  cacheDir : Option (List String)
  dirExists : List String → Bool
  outcome : DownloadOutcome

/-- The deterministic subpath `typst/packages/{namespace}/{name}/{version}`
computed by `prepare_package`. -/
def subdirOf (spec : PackageSpec) : List String :=
  ["typst", "packages", spec.ns, spec.name, spec.version]

/-- Result of `prepare_package` plus whether any network access
(the HTTP GET inside `download_package`) was attempted. -/
structure PrepOut where
  result : Except PackageErr (List String)
  network : Bool
deriving DecidableEq, Repr

/-- `prepare_package` from `src/package.rs` (lines 55-87): check the
data-directory subpath first (pre-installed packages win), then the
cache-directory subpath, then download into the cache subpath only for
the `preview` namespace, else fail with `NotFound`. -/
def prepare_package (spec : PackageSpec) (env : PkgEnv) : PrepOut :=
  let subdir := subdirOf spec
  let dataHit : Option (List String) :=
    match env.dataDir with
    | some dataDir =>
      let dir := dataDir ++ subdir
      if env.dirExists dir then some dir else none
    | none => none
  match dataHit with
  | some dir => ⟨.ok dir, false⟩
  | none =>
    match env.cacheDir with
    | none => ⟨.error (.notFound spec), false⟩
    | some cacheDir =>
      let dir := cacheDir ++ subdir
      if env.dirExists dir then ⟨.ok dir, false⟩
      else if spec.ns = "preview" then
        match download_package spec env.outcome with
        | (.error e, _) => ⟨.error e, true⟩
        | (.ok _, trace) =>
          if dirExistsAfter false trace then ⟨.ok dir, true⟩
          else ⟨.error (.notFound spec), true⟩
      else ⟨.error (.notFound spec), false⟩

/- ## Font registry (`src/fonts.rs`) -/

/-- FontInfo from typst: the metadata record kept in the `FontBook`
(family name plus variant, the parts `update_cache` matches on). -/
structure FontInfo where
  family : String
  variant : Nat
deriving DecidableEq, Repr

/-- Font from typst: a fully decoded font object carrying its metadata. -/
structure Font where
  info : FontInfo
deriving DecidableEq, Repr

/-- Source of a fontdb face: file-backed (plain or shared) or an
in-memory binary blob. -/
inductive FontSource where
  | file (path : String)
  | sharedFile (path : String)
  | binary
deriving DecidableEq, Repr

/-- One face of the throwaway fontdb `Database` that the insert methods
build: its source, its index within the collection, and what
`database.with_face_data(face.id, FontInfo::new)` yields — the outer
`Option` is `None` when the face data cannot be accessed at all
(an insertion error), the inner one is `FontInfo::new`'s parse result. -/
structure FontFace where
  source : FontSource
  index : Nat
  data : Option (Option FontInfo)
deriving DecidableEq, Repr

/-- LazyFont from `src/fonts.rs`: font path, collection index, the
`OnceLock<Option<Font>>` decode cell (outer `none` = never initialized,
`some none` = decode attempted and failed, `some (some f)` = decoded),
and the embedded-asset flag. -/
structure LazyFont where
  path : String
  index : Nat
  font : Option (Option Font)
  embedded : Bool
deriving DecidableEq, Repr

/-- FontCache from `src/fonts.rs`: the font book (metadata records) and
the parallel vector of lazy slots. -/
structure FontCache where
  book : List FontInfo
  fonts : List LazyFont
deriving DecidableEq, Repr

/-- The `WrapperError` variants reachable from the embedded font code. -/
inductive WrapperErr where
  | uninitializedFontCache
  | fontFaceLoadingError (path : String)
deriving DecidableEq, Repr

/-- `FontCache::insert_from_database` from `src/fonts.rs` (lines 238-266),
the common body of `insert_one` / `insert_many` / `insert_dir` /
`insert_dirs`: for every face of the database, skip in-memory binary
sources, fail if the face data is inaccessible, and for every face whose
metadata parses push one record onto the book and one fresh unloaded
slot onto the font vector. -/
def FontCache.insert_from_database (cache : FontCache) :
    List FontFace → Except WrapperErr FontCache
  | [] => .ok cache
  | face :: rest =>
    match face.source with
    | .binary => FontCache.insert_from_database cache rest
    | .file path | .sharedFile path =>
      match face.data with
      | none => .error (.fontFaceLoadingError path)
      | some info =>
        match info with
        | some fontInfo =>
          FontCache.insert_from_database
            { book := cache.book ++ [fontInfo],
              fonts := cache.fonts ++ [⟨path, face.index, none, false⟩] } rest
        | none => FontCache.insert_from_database cache rest

/-- The metadata records that `insert_from_database` accepts, in face
order: file-backed faces whose `FontInfo` parsed. -/
def acceptedInfos (faces : List FontFace) : List FontInfo :=
  faces.filterMap fun face =>
    match face.source, face.data with
    | .binary, _ => none
    | _, some (some fi) => some fi
    | _, _ => none

/-- The unloaded slots that `insert_from_database` appends, in face
order, parallel to `acceptedInfos`. -/
def acceptedSlots (faces : List FontFace) : List LazyFont :=
  faces.filterMap fun face =>
    match face.source, face.data with
    | .binary, _ => none
    | .file path, some (some _) => some ⟨path, face.index, none, false⟩
    | .sharedFile path, some (some _) => some ⟨path, face.index, none, false⟩
    | _, _ => none

/-- ASCII lowercasing of one character, modelling
`str::to_lowercase` at the granularity font-family keys need. -/
def lowerChar (c : Char) : Char :=
  if 65 ≤ c.toNat ∧ c.toNat ≤ 90 then Char.ofNat (c.toNat + 32) else c

/-- Rust `String::to_lowercase`. -/
def lowerString (s : String) : String := ⟨s.data.map lowerChar⟩

/-- Lookup in the font book as `update_cache` uses it: typst's
`FontBook::select(family, variant)` with an exact family/variant match
resolves to the first matching index (the book keys families by their
lowercased name). This models the external typst collaborator at the
granularity the wrapper relies on. -/
def bookSelect : List FontInfo → String → Nat → Option Nat
  | [], _, _ => none
  | fi :: rest, family, variant =>
    if lowerString fi.family = family ∧ fi.variant = variant then some 0
    else (bookSelect rest family variant).map (· + 1)

/-- `FontCache::update_cache` from `src/fonts.rs` (lines 170-199): select
the slot index for the decoded font's lowercased family and variant;
`take()` the slot's cell — if it was never initialized, `set` the given
font; if it already held a value, `set` that old value back (first
writer wins). -/
def FontCache.update_cache (cache : FontCache) (font : Font) : FontCache :=
  match bookSelect cache.book (lowerString font.info.family) font.info.variant with
  | none => cache
  | some idx =>
    match cache.fonts[idx]? with
    | none => cache
    | some slot =>
      match slot.font with
      | none =>
        { cache with fonts := cache.fonts.set idx { slot with font := some (some font) } }
      | some oldValue =>
        { cache with fonts := cache.fonts.set idx { slot with font := some oldValue } }

/-- Rust `LazyFont::clone` as produced by `#[derive(Clone)]`: every field
is cloned, and `OnceLock<Option<Font>>::clone` preserves an initialized
value — so the cell state is carried over as-is. -/
def cloneLazyFont (s : LazyFont) : LazyFont := ⟨s.path, s.index, s.font, s.embedded⟩

/-- `FontCache::get_book_and_fonts` from `src/fonts.rs` (lines 205-213):
clone the book and clone the slot vector (`fonts.to_vec()` clones each
`LazyFont`). -/
def FontCache.get_book_and_fonts (cache : FontCache) :
    List FontInfo × List LazyFont :=
  (cache.book, cache.fonts.map cloneLazyFont)

/- ## Page encoding phase of `compile_png` / `compile_svg`
(`src/compiler.rs` lines 389-497 and 535-620) -/

/-- A per-page diagnostic message (`SourceDiagnostic::error` text). -/
abbrev Diag := String

/-- The outcome of rendering and encoding one page
(`typst_render::render(..).encode_png()`; for SVG the error case never
occurs). -/
abbrev EncResult := Except Diag (List Nat)

/-- The buffer that ends up in a page's slot: the encoded bytes on
success, the untouched preallocated empty buffer on failure. -/
def toBuf : EncResult → List Nat
  | .ok buf => buf
  | .error _ => []

/-- One worker step on the shared state: write an encoded page into its
slot (`pages_buffer[page_index] = buf`, by index, never an append) or
push a diagnostic onto the shared error list. -/
def encodeStep (st : List (List Nat) × List Diag) (job : Nat × EncResult) :
    List (List Nat) × List Diag :=
  match job.2 with
  | .ok buf => (st.1.set job.1 buf, st.2)
  | .error e => (st.1, st.2 ++ [e])

/-- Folding all worker steps, in the order the workers complete, over the
preallocated buffer vector and the upstream error list. -/
def encodePages (init : List (List Nat)) (errs : List Diag)
    (jobs : List (Nat × EncResult)) : List (List Nat) × List Diag :=
  jobs.foldl encodeStep (init, errs)

/-- `document.pages.into_iter().enumerate()` starting at `k`. -/
def enumFrom (k : Nat) : List EncResult → List (Nat × EncResult)
  | [] => []
  | r :: rs => (k, r) :: enumFrom (k + 1) rs

/-- The encoding diagnostics of a page-result list, in page order. -/
def errorsOf (results : List EncResult) : List Diag :=
  results.filterMap fun r => match r with | .ok _ => none | .error e => some e

/-- The page-encoding phase shared by `compile_png` and `compile_svg`:
preallocate one empty buffer per page, run the per-page jobs (given in
an arbitrary completion order for the `parallel_compilation` build, in
page order for the sequential build), then demote the whole output to
`none` if any slot is still empty. `upstream` is the diagnostic list
carried in from compilation. -/
def compile_png_phase (upstream : List Diag) (results : List EncResult)
    (jobs : List (Nat × EncResult)) : Option (List (List Nat)) × List Diag :=
  let st := encodePages (List.replicate results.length []) upstream jobs
  (if st.1.any List.isEmpty then none else some st.1, st.2)

/- ## `World` callbacks of the compiler (`src/compiler.rs` lines 95-146) -/

/-- The reserved in-memory marker (its `const` definition sits above the
modules shown under `src/`; the builder documentation in
`src/builder.rs` states this text). -/
def RESERVED_IN_MEMORY_IDENTIFIER : String :=
  "CUSTOM_SOURCE_CONTENT_INPUT_IN_MEMORY_FILE"

/-- Rust `str::contains` on substrings. -/
def strContains (haystack needle : String) : Bool :=
  decide (needle.toList <:+: haystack.toList)

/-- LazyFile from `src/files.rs` (lines 78-85): the slot's file id plus
one cell for the decoded source and one for the raw bytes. -/
structure LazyFile where
  id : FileIdM
  sourceCell : LazyCell Source
  fileCell : LazyCell (List Nat)
deriving DecidableEq, Repr

/-- `LazyFile::new(id)`: both cells empty. -/
def LazyFile.new (id : FileIdM) : LazyFile := ⟨id, LazyCell.new, LazyCell.new⟩

/-- Environment of one compilation: the content hash and what
`system_path` + `read_from_disk` would yield for each file id
(package resolution and disk I/O abstracted as a function of the id). -/
structure WorldEnv where
  hash : FileRes (List Nat) → Nat
  loadOf : FileIdM → FileRes (List Nat)

/-- Result of one `LazyFile` operation: the value, the updated slot, and
whether the load closure (a filesystem read) ran. -/
structure FileCallOut (α : Type) where
  result : FileRes α
  slot : LazyFile
  loadInvoked : Bool
deriving DecidableEq, Repr

/-- `LazyFile::source` from `src/files.rs` (lines 131-152). -/
def LazyFile.source (lf : LazyFile) (env : WorldEnv) : FileCallOut Source :=
  let o := lf.sourceCell.get_or_init env.hash (env.loadOf lf.id) (sourceTransform lf.id)
  ⟨o.result, { lf with sourceCell := o.cell }, o.loadInvoked⟩

/-- `LazyFile::file` from `src/files.rs` (lines 155-168): the transform
is the identity wrap `|data, _| Ok(data.into())`. -/
def LazyFile.file (lf : LazyFile) (env : WorldEnv) : FileCallOut (List Nat) :=
  let o := lf.fileCell.get_or_init env.hash (env.loadOf lf.id) (fun data _ => .ok data)
  ⟨o.result, { lf with fileCell := o.cell }, o.loadInvoked⟩

/-- The compiler state the `World` callbacks touch: the pinned in-memory
entry source and the file-id → slot map. -/
structure CompilerM where
  entry : Source
  files : List (FileIdM × LazyFile)
deriving DecidableEq, Repr

/-- Result of a `World` callback: the value, the updated compiler state,
and whether a filesystem read ran. -/
structure WorldOut (α : Type) where
  result : FileRes α
  compiler : CompilerM
  loadInvoked : Bool
deriving DecidableEq, Repr

/-- Lookup of a file id in the slot map. -/
def lookupSlot (files : List (FileIdM × LazyFile)) (id : FileIdM) :
    Option LazyFile :=
  match files with
  | [] => none
  | e :: rest => if e.1 = id then some e.2 else lookupSlot rest id

/-- Store an updated slot under a file id (`HashMap::entry(id).or_insert`
followed by the closure's mutation). -/
def updateSlot (files : List (FileIdM × LazyFile)) (id : FileIdM)
    (lf : LazyFile) : List (FileIdM × LazyFile) :=
  match files with
  | [] => [(id, lf)]
  | e :: rest => if e.1 = id then (id, lf) :: rest else e :: updateSlot rest id lf

/-- `Compiler::slot` from `src/compiler.rs` (lines 140-146): look up the
canonical slot for the id, inserting a fresh `LazyFile::new(id)` when
absent, and run the operation on it. -/
def Compiler.slot {α : Type} (c : CompilerM) (id : FileIdM)
    (f : LazyFile → FileCallOut α) : WorldOut α :=
  let lf := (lookupSlot c.files id).getD (LazyFile.new id)
  let o := f lf
  ⟨o.result, { c with files := updateSlot c.files id o.slot }, o.loadInvoked⟩

/-- `Compiler::source` from `src/compiler.rs` (lines 95-105): when the
virtual path text contains the reserved in-memory marker, answer with a
clone of the pinned entry source, never touching the slot map; otherwise
delegate to the canonical slot. -/
def Compiler.source (c : CompilerM) (env : WorldEnv) (id : FileIdM) :
    WorldOut Source :=
  let inMemoryFile := strContains id.vpath RESERVED_IN_MEMORY_IDENTIFIER
  if inMemoryFile then ⟨.ok c.entry, c, false⟩
  else Compiler.slot c id (fun slot => slot.source env)

/-- `Compiler::file` from `src/compiler.rs` (lines 108-110): no in-memory
special case — always the ordinary slot lookup and read. -/
def Compiler.file (c : CompilerM) (env : WorldEnv) (id : FileIdM) :
    WorldOut (List Nat) :=
  Compiler.slot c id (fun slot => slot.file env)

/- ## Concrete data used by the witnesses -/

/-- The buffer component of one worker step. -/
def bufStep (b : List (List Nat)) (job : Nat × EncResult) : List (List Nat) :=
  match job.2 with
  | .ok buf => b.set job.1 buf
  | .error _ => b

/-- Concrete 5-page scenario: page index 2's encoder fails, the others
succeed. -/
def results5 : List EncResult := [.ok [1], .ok [2], .error "enc", .ok [4], .ok [5]]

/-- The same pages submitted in reverse completion order (page 4 finishes
before page 0). -/
def jobs5 : List (Nat × EncResult) := (enumFrom 0 results5).reverse

/-- Concrete stand-ins used by the LazyCell witnesses. -/
def witnessId : FileIdM := ⟨none, "main.typ"⟩

def witnessSource : Source := ⟨witnessId, ['h', 'i'], 3⟩

def witnessHash : FileRes (List Nat) → Nat
  | .ok bytes => bytes.length + 1
  | .error _ => 0

def witnessTf : List Nat → Option Source → FileRes Source :=
  sourceTransform witnessId

/-- Fingerprint function for the C4 witness: errors hash to 7, distinct
from the fresh cell's fingerprint 0. -/
def witnessHashErr : FileRes (List Nat) → Nat
  | .ok bytes => bytes.length
  | .error _ => 7

/-- Packages and environment for the C5 witness: a `preview` package with
no local copy anywhere and a 404 download outcome. -/
def witnessSpec : PackageSpec := ⟨"preview", "example", "1.0.0"⟩

def witnessPkgEnv : PkgEnv :=
  ⟨some ["data"], some ["cache"], fun _ => false, .httpStatus404⟩

/-- A file-backed face whose metadata parses, used twice by the C7
witness. -/
def witnessFace : FontFace := ⟨.file "/fonts/a.ttf", 0, some (some ⟨"Arial", 5⟩)⟩

/-- Registry with one cold matching slot, for the C8 witness. -/
def witnessColdCache : FontCache :=
  ⟨[⟨"Arial", 5⟩], [⟨"/fonts/a.ttf", 0, none, false⟩]⟩

def witnessFont : Font := ⟨⟨"Arial", 5⟩⟩

/-- A registry holding one already-warm slot, as produced by embedded
fonts (`OnceLock::from(Some(font))`) or by a previous `update_cache`. -/
def witnessWarmCache : FontCache :=
  ⟨[⟨"Arial", 5⟩], [⟨"/fonts/a.ttf", 0, some (some ⟨⟨"Arial", 5⟩⟩), false⟩]⟩

/-- A file id carrying the reserved marker, and a trivial environment,
for the C10 witness. -/
def witnessInMemId : FileIdM :=
  ⟨none, "/" ++ RESERVED_IN_MEMORY_IDENTIFIER⟩

def witnessWorldEnv : WorldEnv :=
  ⟨witnessHash, fun _ => .ok [104, 105]⟩

def witnessCompiler : CompilerM := ⟨witnessSource, []⟩

/- ## Helper lemmas -/

/-- Setting a list position to the value it already holds is a no-op. -/
theorem set_eq_self_of_getElem? {α : Type} :
    ∀ (l : List α) (i : Nat) (a : α), l[i]? = some a → l.set i a = l
  | [], i, a, h => by simp at h
  | x :: xs, 0, a, h => by
    simp at h
    simp [List.set, h]
  | x :: xs, i + 1, a, h => by
    rw [List.getElem?_cons_succ] at h
    simp [List.set, set_eq_self_of_getElem? xs i a h]

theorem encodePages_fst :
    ∀ (jobs : List (Nat × EncResult)) (init : List (List Nat)) (errs : List Diag),
      (encodePages init errs jobs).1 = jobs.foldl bufStep init
  | [], _, _ => rfl
  | (i, .ok buf) :: js, init, errs => by
    simpa [encodePages, encodeStep, bufStep, List.foldl_cons] using
      encodePages_fst js (init.set i buf) errs
  | (i, .error e) :: js, init, errs => by
    simpa [encodePages, encodeStep, bufStep, List.foldl_cons] using
      encodePages_fst js init (errs ++ [e])

theorem encodePages_snd :
    ∀ (jobs : List (Nat × EncResult)) (init : List (List Nat)) (errs : List Diag),
      (encodePages init errs jobs).2 = errs ++ errorsOf (jobs.map Prod.snd)
  | [], init, errs => by simp [encodePages, errorsOf]
  | (i, .ok buf) :: js, init, errs => by
    have ih := encodePages_snd js (init.set i buf) errs
    simpa [encodePages, encodeStep, errorsOf, List.filterMap_cons, List.foldl_cons] using ih
  | (i, .error e) :: js, init, errs => by
    have ih := encodePages_snd js init (errs ++ [e])
    simp only [encodePages, List.foldl_cons, encodeStep] at ih ⊢
    rw [ih]
    simp [errorsOf, List.filterMap_cons]

theorem enumFrom_map_snd : ∀ (k : Nat) (rs : List EncResult),
    (enumFrom k rs).map Prod.snd = rs
  | _, [] => rfl
  | k, r :: rs => by simp [enumFrom, enumFrom_map_snd (k + 1) rs]

theorem mem_enumFrom_le : ∀ {k : Nat} {rs : List EncResult} {x : Nat × EncResult},
    x ∈ enumFrom k rs → k ≤ x.1
  | k, [], x, h => by simp [enumFrom] at h
  | k, r :: rs, x, h => by
    simp only [enumFrom, List.mem_cons] at h
    rcases h with h | h
    · subst h; exact Nat.le_refl k
    · have := mem_enumFrom_le h
      omega

theorem mem_enumFrom_inj : ∀ {k : Nat} {rs : List EncResult} {x y : Nat × EncResult},
    x ∈ enumFrom k rs → y ∈ enumFrom k rs → x.1 = y.1 → x = y
  | k, [], x, y, hx, _, _ => by simp [enumFrom] at hx
  | k, r :: rs, x, y, hx, hy, hxy => by
    simp only [enumFrom, List.mem_cons] at hx hy
    rcases hx with hx | hx <;> rcases hy with hy | hy
    · rw [hx, hy]
    · have := mem_enumFrom_le hy
      subst hx; omega
    · have := mem_enumFrom_le hx
      subst hy; omega
    · exact mem_enumFrom_inj hx hy hxy

theorem bufFold_length : ∀ (jobs : List (Nat × EncResult)) (init : List (List Nat)),
    (jobs.foldl bufStep init).length = init.length
  | [], _ => rfl
  | (i, r) :: js, init => by
    cases r with
    | ok buf =>
      rw [List.foldl_cons]
      simpa [bufStep] using bufFold_length js (init.set i buf)
    | error e =>
      rw [List.foldl_cons]
      simpa [bufStep] using bufFold_length js init

theorem bufFold_untouched :
    ∀ (jobs : List (Nat × EncResult)) (init : List (List Nat)) (i : Nat),
      (∀ j ∈ jobs, j.1 ≠ i) → (jobs.foldl bufStep init)[i]? = init[i]?
  | [], _, _, _ => rfl
  | (a, r) :: js, init, i, h => by
    have h1 : a ≠ i := h (a, r) (List.mem_cons_self _ _)
    have h2 : ∀ j ∈ js, j.1 ≠ i := fun j hj => h j (List.mem_cons_of_mem _ hj)
    cases r with
    | ok buf =>
      rw [List.foldl_cons]
      show (js.foldl bufStep (init.set a buf))[i]? = init[i]?
      rw [bufFold_untouched js _ i h2, List.getElem?_set_ne h1]
    | error e =>
      rw [List.foldl_cons]
      exact bufFold_untouched js init i h2

theorem bufFold_enum_getElem :
    ∀ (rs : List EncResult) (k : Nat) (init : List (List Nat)) (m : Nat) (r : EncResult),
      rs[m]? = some r → (∀ j, j < rs.length → init[k + j]? = some ([] : List Nat)) →
      ((enumFrom k rs).foldl bufStep init)[k + m]? = some (toBuf r)
  | [], _, _, m, r, hm, _ => by simp at hm
  | r0 :: rs, k, init, m, r, hm, hinit => by
    have hk0 : init[k]? = some ([] : List Nat) := by
      simpa using hinit 0 (by simp)
    have hklt : k < init.length := by
      rcases List.getElem?_eq_some.1 hk0 with ⟨h, _⟩
      exact h
    have hstep : bufStep init (k, r0) = init.set k (toBuf r0) := by
      cases r0 with
      | ok buf => rfl
      | error e =>
        show init = init.set k (toBuf (Except.error e))
        rw [show toBuf (Except.error e) = ([] : List Nat) from rfl]
        exact (set_eq_self_of_getElem? init k [] hk0).symm
    rw [show enumFrom k (r0 :: rs) = (k, r0) :: enumFrom (k + 1) rs from rfl,
      List.foldl_cons, hstep]
    cases m with
    | zero =>
      have hr : r0 = r := by simpa using hm
      subst hr
      have huntouched : ∀ j ∈ enumFrom (k + 1) rs, j.1 ≠ k := by
        intro j hj
        have := mem_enumFrom_le hj
        omega
      have h1 := bufFold_untouched (enumFrom (k + 1) rs) (init.set k (toBuf r0)) k huntouched
      have h2 : (init.set k (toBuf r0))[k]? = some (toBuf r0) :=
        List.getElem?_set_self hklt
      simpa using h1.trans h2
    | succ m =>
      have hm' : rs[m]? = some r := by
        rw [← List.getElem?_cons_succ (a := r0)]
        exact hm
      have hidx : k + (m + 1) = (k + 1) + m := by omega
      rw [hidx]
      apply bufFold_enum_getElem rs (k + 1) (init.set k (toBuf r0)) m r hm'
      intro j hj
      have hne : k ≠ (k + 1) + j := by omega
      rw [List.getElem?_set_ne hne]
      have := hinit (j + 1) (by simpa using Nat.succ_lt_succ hj)
      simpa [show k + (j + 1) = (k + 1) + j from by omega] using this

theorem bufFold_enum_eq (results : List EncResult) :
    (enumFrom 0 results).foldl bufStep (List.replicate results.length []) =
      results.map toBuf := by
  apply List.ext_getElem?
  intro n
  by_cases hn : n < results.length
  · have hr : results[n]? = some results[n] := List.getElem?_eq_getElem hn
    have h := bufFold_enum_getElem results 0 (List.replicate results.length []) n
      results[n] hr (fun j hj => by simp [List.getElem?_replicate, hj])
    simp only [Nat.zero_add] at h
    rw [h, List.getElem?_map, hr]
    rfl
  · have h1 : ((enumFrom 0 results).foldl bufStep
        (List.replicate results.length [])).length ≤ n := by
      rw [bufFold_length, List.length_replicate]
      omega
    rw [List.getElem?_eq_none h1,
      List.getElem?_eq_none (by simpa using Nat.le_of_not_lt hn)]

theorem bufFold_perm (results : List EncResult) (jobs : List (Nat × EncResult))
    (hperm : jobs.Perm (enumFrom 0 results)) (init : List (List Nat)) :
    jobs.foldl bufStep init = (enumFrom 0 results).foldl bufStep init := by
  apply List.Perm.foldl_eq' hperm
  intro x hx y hy z
  have hx' : x ∈ enumFrom 0 results := hperm.subset hx
  have hy' : y ∈ enumFrom 0 results := hperm.subset hy
  by_cases hxy : x.1 = y.1
  · rw [mem_enumFrom_inj hx' hy' hxy]
  · rcases x with ⟨i, rx⟩
    rcases y with ⟨j, ry⟩
    cases rx with
    | ok bx =>
      cases ry with
      | ok bby => exact List.set_comm bx bby z hxy
      | error e => rfl
    | error e =>
      cases ry with
      | ok bby => rfl
      | error e2 => rfl

/-- C1: in `compile_png` / `compile_svg` the output vector is preallocated
with one empty buffer per page and every worker writes page `i`'s encoded
bytes into slot `i`, so for any worker completion order (any permutation
of the enumerated pages) the final vector is ordered by source page
index; if any slot is still empty the overall output is `none` while the
error list still carries every per-page encoding diagnostic plus the
upstream diagnostics (as a multiset); otherwise the output is `some` with
exactly one buffer per page. -/
theorem compile_png_phase_ordered (upstream : List Diag)
    (results : List EncResult) (jobs : List (Nat × EncResult))
    (hperm : jobs.Perm (enumFrom 0 results)) :
    ((compile_png_phase upstream results jobs).1 =
        if (results.map toBuf).any List.isEmpty then none
        else some (results.map toBuf)) ∧
    ((compile_png_phase upstream results jobs).1 = none ↔
        ∃ r ∈ results, toBuf r = []) ∧
    (∀ pages, (compile_png_phase upstream results jobs).1 = some pages →
        pages = results.map toBuf ∧ pages.length = results.length) ∧
    (compile_png_phase upstream results jobs).2.Perm
      (upstream ++ errorsOf results) := by
  have hbuf : (encodePages (List.replicate results.length []) upstream jobs).1
      = results.map toBuf := by
    rw [encodePages_fst, bufFold_perm results jobs hperm, bufFold_enum_eq]
  have herr : (encodePages (List.replicate results.length []) upstream jobs).2.Perm
      (upstream ++ errorsOf results) := by
    rw [encodePages_snd]
    apply List.Perm.append_left
    have h1 : (jobs.map Prod.snd).Perm results := by
      have := List.Perm.map Prod.snd hperm
      rwa [enumFrom_map_snd] at this
    exact List.Perm.filterMap _ h1
  have hout : compile_png_phase upstream results jobs =
      (if (results.map toBuf).any List.isEmpty then none
       else some (results.map toBuf),
       (encodePages (List.replicate results.length []) upstream jobs).2) := by
    simp only [compile_png_phase, hbuf]
  refine ⟨by rw [hout], ?_, ?_, by rw [hout]; exact herr⟩
  · rw [hout]
    by_cases hany : (results.map toBuf).any List.isEmpty
    · simp only [hany, if_true, true_iff]
      rcases List.any_eq_true.1 hany with ⟨b, hb, hbe⟩
      rcases List.mem_map.1 hb with ⟨r, hr, hrb⟩
      exact ⟨r, hr, by rw [hrb]; exact List.isEmpty_iff.1 hbe⟩
    · rw [if_neg hany]
      constructor
      · intro h
        exact absurd h (by simp)
      · rintro ⟨r, hr, hre⟩
        exact absurd (List.any_eq_true.2
          ⟨toBuf r, List.mem_map.2 ⟨r, hr, rfl⟩, List.isEmpty_iff.2 hre⟩) hany
  · intro pages hpages
    rw [hout] at hpages
    by_cases hany : (results.map toBuf).any List.isEmpty
    · rw [if_pos hany] at hpages
      exact absurd hpages (by simp)
    · rw [if_neg hany] at hpages
      have := Option.some.inj hpages
      exact ⟨this.symm, by rw [← this, List.length_map]⟩

theorem compile_png_phase_ordered_witness :
    ((compile_png_phase [] results5 jobs5).1 =
        if (results5.map toBuf).any List.isEmpty then none
        else some (results5.map toBuf)) ∧
    ((compile_png_phase [] results5 jobs5).1 = none ↔
        ∃ r ∈ results5, toBuf r = []) ∧
    (∀ pages, (compile_png_phase [] results5 jobs5).1 = some pages →
        pages = results5.map toBuf ∧ pages.length = results5.length) ∧
    (compile_png_phase [] results5 jobs5).2.Perm ([] ++ errorsOf results5) :=
  compile_png_phase_ordered [] results5 jobs5 (by decide)

/- ## LazyCell lemmas -/

theorem process_data {T : Type} (cell2 : LazyCell T) (prev : Option T)
    (load : FileRes (List Nat)) (tf : List Nat → Option T → FileRes T) :
    (LazyCell.process cell2 prev load tf).cell.data =
      some (LazyCell.process cell2 prev load tf).result := by
  cases load <;> rfl

theorem process_accessed {T : Type} (cell2 : LazyCell T) (prev : Option T)
    (load : FileRes (List Nat)) (tf : List Nat → Option T → FileRes T) :
    (LazyCell.process cell2 prev load tf).cell.accessed = cell2.accessed := by
  cases load <;> rfl

/-- After the first branch of `get_or_init` was skipped, the returned
value is always the newly cached one and the accessed flag is set. -/
theorem get_or_init_post {T : Type} (cell : LazyCell T)
    (hash : FileRes (List Nat) → Nat) (load : FileRes (List Nat))
    (tf : List Nat → Option T → FileRes T) :
    (cell.get_or_init hash load tf).cell.accessed = true ∧
    (cell.get_or_init hash load tf).cell.data =
      some (cell.get_or_init hash load tf).result := by
  rcases cell with ⟨data, fp, acc⟩
  cases acc with
  | true =>
    cases data with
    | some d => exact ⟨rfl, rfl⟩
    | none =>
      simp only [LazyCell.get_or_init]
      split
      · exact ⟨by rw [process_accessed], process_data _ _ _ _⟩
      · exact ⟨by rw [process_accessed], process_data _ _ _ _⟩
  | false =>
    simp only [LazyCell.get_or_init]
    split
    · rename_i hfp
      cases data with
      | some d => exact ⟨rfl, rfl⟩
      | none => exact ⟨by rw [process_accessed], process_data _ _ _ _⟩
    · exact ⟨by rw [process_accessed], process_data _ _ _ _⟩

/-- Branch 1 of `get_or_init`: already accessed this round with a cached
result — return it unchanged, load and transform untouched. -/
theorem get_or_init_cached {T : Type} (cell : LazyCell T)
    (hash : FileRes (List Nat) → Nat) (load : FileRes (List Nat))
    (tf : List Nat → Option T → FileRes T) (d : FileRes T)
    (hacc : cell.accessed = true) (hdata : cell.data = some d) :
    cell.get_or_init hash load tf = ⟨d, cell, false, []⟩ := by
  rcases cell with ⟨data, fp, acc⟩
  simp only at hacc hdata
  subst hacc
  subst hdata
  rfl

/-- C2: within one compilation round, any `get_or_init` call after the
first that finds a cached result returns that result without invoking
the load closure or the transform; consequently, after any first call
the second call never loads again and returns a value equal to the
first call's result with the cell unchanged — the loader runs at most
once per round and repeated reads agree with the first read. -/
theorem lazycell_round_cache {T : Type} (cell : LazyCell T)
    (hash : FileRes (List Nat) → Nat) (load : FileRes (List Nat))
    (tf : List Nat → Option T → FileRes T)
    (hash2 : FileRes (List Nat) → Nat) (load2 : FileRes (List Nat))
    (tf2 : List Nat → Option T → FileRes T)
    (d : FileRes T) (hacc : cell.accessed = true) (hdata : cell.data = some d) :
    (cell.get_or_init hash load tf = ⟨d, cell, false, []⟩) ∧
    (((cell.get_or_init hash2 load2 tf2).cell.get_or_init hash load tf).result =
        (cell.get_or_init hash2 load2 tf2).result ∧
     ((cell.get_or_init hash2 load2 tf2).cell.get_or_init hash load tf).loadInvoked =
        false ∧
     ((cell.get_or_init hash2 load2 tf2).cell.get_or_init hash load tf).transformCalls =
        [] ∧
     ((cell.get_or_init hash2 load2 tf2).cell.get_or_init hash load tf).cell =
        (cell.get_or_init hash2 load2 tf2).cell) := by
  have hpost := get_or_init_post cell hash2 load2 tf2
  have hsecond := get_or_init_cached (cell.get_or_init hash2 load2 tf2).cell
    hash load tf (cell.get_or_init hash2 load2 tf2).result hpost.1 hpost.2
  exact ⟨get_or_init_cached cell hash load tf d hacc hdata,
    by rw [hsecond], by rw [hsecond], by rw [hsecond], by rw [hsecond]⟩

/-- Branch 2 of `get_or_init`: first call of the round, fingerprint
unchanged, cached result present — return it, skipping the transform. -/
theorem get_or_init_fphit {T : Type} (cell : LazyCell T)
    (hash : FileRes (List Nat) → Nat) (load : FileRes (List Nat))
    (tf : List Nat → Option T → FileRes T) (d : FileRes T)
    (hacc : cell.accessed = false) (hdata : cell.data = some d)
    (hfp : cell.fingerprint = hash load) :
    cell.get_or_init hash load tf =
      ⟨d, { cell with accessed := true, fingerprint := hash load }, true, []⟩ := by
  rcases cell with ⟨data, fp, acc⟩
  simp only at hacc hdata hfp
  subst hacc
  subst hdata
  subst hfp
  simp only [LazyCell.get_or_init]
  rw [if_pos trivial]

theorem lazycell_round_cache_witness :
    ((⟨some (.ok witnessSource), 3, true⟩ : LazyCell Source).get_or_init
        witnessHash (.ok [104, 105]) witnessTf =
      ⟨.ok witnessSource, ⟨some (.ok witnessSource), 3, true⟩, false, []⟩) ∧
    ((((⟨some (.ok witnessSource), 3, true⟩ : LazyCell Source).get_or_init
          witnessHash (.ok [104, 105]) witnessTf).cell.get_or_init
            witnessHash (.ok [104, 105]) witnessTf).result =
        ((⟨some (.ok witnessSource), 3, true⟩ : LazyCell Source).get_or_init
          witnessHash (.ok [104, 105]) witnessTf).result ∧
     (((⟨some (.ok witnessSource), 3, true⟩ : LazyCell Source).get_or_init
          witnessHash (.ok [104, 105]) witnessTf).cell.get_or_init
            witnessHash (.ok [104, 105]) witnessTf).loadInvoked = false ∧
     (((⟨some (.ok witnessSource), 3, true⟩ : LazyCell Source).get_or_init
          witnessHash (.ok [104, 105]) witnessTf).cell.get_or_init
            witnessHash (.ok [104, 105]) witnessTf).transformCalls = [] ∧
     (((⟨some (.ok witnessSource), 3, true⟩ : LazyCell Source).get_or_init
          witnessHash (.ok [104, 105]) witnessTf).cell.get_or_init
            witnessHash (.ok [104, 105]) witnessTf).cell =
        ((⟨some (.ok witnessSource), 3, true⟩ : LazyCell Source).get_or_init
          witnessHash (.ok [104, 105]) witnessTf).cell) :=
  lazycell_round_cache (⟨some (.ok witnessSource), 3, true⟩ : LazyCell Source)
    witnessHash (.ok [104, 105]) witnessTf witnessHash (.ok [104, 105]) witnessTf
    (.ok witnessSource) rfl rfl

/-- C3: on the first read of a round, when the newly computed fingerprint
of the load result equals the stored fingerprint and a cached result
exists, `get_or_init` returns the cached result unchanged and never
invokes the transform; and the source transform, on changed bytes with a
previous successful decode, updates that previous `Source` in place via
`replace` — keeping its identity and accumulated incremental state —
rather than building a fresh `Source::new` (whose state starts at zero). -/
theorem lazycell_fingerprint_short_circuit (cell : LazyCell Source)
    (hash : FileRes (List Nat) → Nat) (load : FileRes (List Nat))
    (tf : List Nat → Option Source → FileRes Source) (d : FileRes Source)
    (hacc : cell.accessed = false) (hdata : cell.data = some d)
    (hfp : cell.fingerprint = hash load)
    (id : FileIdM) (bytes : List Nat) (prev : Source) (text : List Char)
    (hdec : decodeUtf8 bytes = .ok text) :
    ((cell.get_or_init hash load tf).result = d ∧
     (cell.get_or_init hash load tf).transformCalls = [] ∧
     (cell.get_or_init hash load tf).loadInvoked = true) ∧
    (sourceTransform id bytes (some prev) = .ok (prev.replace text) ∧
     (prev.replace text).id = prev.id ∧
     (prev.replace text).revisions = prev.revisions + 1 ∧
     (Source.new id text).revisions = 0) := by
  have h := get_or_init_fphit cell hash load tf d hacc hdata hfp
  refine ⟨⟨by rw [h], by rw [h], by rw [h]⟩, ?_, rfl, rfl, rfl⟩
  simp [sourceTransform, hdec]

theorem lazycell_fingerprint_short_circuit_witness :
    (((⟨some (.ok witnessSource), 3, false⟩ : LazyCell Source).get_or_init
        witnessHash (.ok [104, 105]) witnessTf).result = .ok witnessSource ∧
     ((⟨some (.ok witnessSource), 3, false⟩ : LazyCell Source).get_or_init
        witnessHash (.ok [104, 105]) witnessTf).transformCalls = [] ∧
     ((⟨some (.ok witnessSource), 3, false⟩ : LazyCell Source).get_or_init
        witnessHash (.ok [104, 105]) witnessTf).loadInvoked = true) ∧
    (sourceTransform witnessId [104, 105] (some witnessSource) =
        .ok (witnessSource.replace ['h', 'i']) ∧
     (witnessSource.replace ['h', 'i']).id = witnessSource.id ∧
     (witnessSource.replace ['h', 'i']).revisions = witnessSource.revisions + 1 ∧
     (Source.new witnessId ['h', 'i']).revisions = 0) :=
  lazycell_fingerprint_short_circuit
    (⟨some (.ok witnessSource), 3, false⟩ : LazyCell Source)
    witnessHash (.ok [104, 105]) witnessTf (.ok witnessSource) rfl rfl rfl
    witnessId [104, 105] witnessSource ['h', 'i'] (by decide)

/-- Branch 3 of `get_or_init`: first call of the round with a changed
fingerprint — recompute through `process`, passing the previous
successful value. -/
theorem get_or_init_miss {T : Type} (cell : LazyCell T)
    (hash : FileRes (List Nat) → Nat) (load : FileRes (List Nat))
    (tf : List Nat → Option T → FileRes T)
    (hacc : cell.accessed = false) (hch : cell.fingerprint ≠ hash load) :
    cell.get_or_init hash load tf =
      LazyCell.process { cell with accessed := true, fingerprint := hash load }
        (Option.bind cell.data resultOk) load tf := by
  rcases cell with ⟨data, fp, acc⟩
  simp only at hacc hch
  subst hacc
  simp only [LazyCell.get_or_init]
  rw [if_neg hch]

theorem process_transform_prev {T : Type} (cell2 : LazyCell T) (prev : Option T)
    (load : FileRes (List Nat)) (tf : List Nat → Option T → FileRes T) :
    ∀ call ∈ (LazyCell.process cell2 prev load tf).transformCalls, call.2 = prev := by
  intro call hc
  cases load with
  | error e => simp [LazyCell.process] at hc
  | ok bytes =>
    simp only [LazyCell.process, List.mem_singleton] at hc
    rw [hc]

/-- In every branch of `get_or_init`, any invocation of the transform
receives the cached value filtered to its successful payload. -/
theorem get_or_init_transform_prev {T : Type} (cell : LazyCell T)
    (hash : FileRes (List Nat) → Nat) (load : FileRes (List Nat))
    (tf : List Nat → Option T → FileRes T) :
    ∀ call ∈ (cell.get_or_init hash load tf).transformCalls,
      call.2 = Option.bind cell.data resultOk := by
  rcases cell with ⟨data, fp, acc⟩
  cases acc with
  | true =>
    cases data with
    | some d => intro call hc; simp [LazyCell.get_or_init] at hc
    | none =>
      simp only [LazyCell.get_or_init]
      split
      · exact process_transform_prev _ _ _ _
      · exact process_transform_prev _ _ _ _
  | false =>
    simp only [LazyCell.get_or_init]
    split
    · cases data with
      | some d => intro call hc; simp at hc
      | none => exact process_transform_prev _ _ _ _
    · exact process_transform_prev _ _ _ _

/-- C4: load errors are cached and fingerprinted exactly like successes —
after a failing first read the cell holds the error and the error's
fingerprint, so an identical failure on a later round returns the cached
error with no re-processing and a retry only happens when the error's
fingerprint changes; and whenever the transform runs it receives the
cached successful decoded value as its previous value, a previously
cached error being discarded to `none`. -/
theorem lazycell_error_cached (cell : LazyCell Source)
    (hash : FileRes (List Nat) → Nat)
    (tf tf2 : List Nat → Option Source → FileRes Source)
    (e : FileErr) (hacc : cell.accessed = false)
    (hch : cell.fingerprint ≠ hash (.error e)) :
    ((cell.get_or_init hash (.error e) tf).result = .error e ∧
     (cell.get_or_init hash (.error e) tf).cell.data = some (.error e) ∧
     (cell.get_or_init hash (.error e) tf).cell.fingerprint = hash (.error e) ∧
     (cell.get_or_init hash (.error e) tf).transformCalls = []) ∧
    (((⟨some (.error e), hash (.error e), false⟩ : LazyCell Source).get_or_init
        hash (.error e) tf2) =
      ⟨.error e, ⟨some (.error e), hash (.error e), true⟩, true, []⟩) ∧
    (∀ bytes : List Nat, hash (.error e) ≠ hash (.ok bytes) →
      ((⟨some (.error e), hash (.error e), false⟩ : LazyCell Source).get_or_init
          hash (.ok bytes) tf2).transformCalls = [(bytes, none)]) ∧
    (∀ (c2 : LazyCell Source) (load2 : FileRes (List Nat))
        (tf3 : List Nat → Option Source → FileRes Source),
      ∀ call ∈ (c2.get_or_init hash load2 tf3).transformCalls,
        call.2 = Option.bind c2.data resultOk) ∧
    (∀ e2 : FileErr,
      Option.bind (some (.error e2) : Option (FileRes Source)) resultOk = none) ∧
    (∀ v : Source,
      Option.bind (some (.ok v) : Option (FileRes Source)) resultOk = some v) := by
  have hmiss := get_or_init_miss cell hash (.error e) tf hacc hch
  refine ⟨⟨by rw [hmiss]; rfl, by rw [hmiss]; rfl, by rw [hmiss]; rfl,
    by rw [hmiss]; rfl⟩, ?_, ?_, ?_, fun e2 => rfl, fun v => rfl⟩
  · exact get_or_init_fphit _ hash (.error e) tf2 (.error e) rfl rfl rfl
  · intro bytes hne
    rw [get_or_init_miss _ hash (.ok bytes) tf2 rfl hne]
    rfl
  · intro c2 load2 tf3
    exact get_or_init_transform_prev c2 hash load2 tf3

theorem lazycell_error_cached_witness :
    (((⟨none, 0, false⟩ : LazyCell Source).get_or_init witnessHashErr
        (.error (.notFound "a.typ")) witnessTf).result =
          .error (.notFound "a.typ") ∧
     ((⟨none, 0, false⟩ : LazyCell Source).get_or_init witnessHashErr
        (.error (.notFound "a.typ")) witnessTf).cell.data =
          some (.error (.notFound "a.typ")) ∧
     ((⟨none, 0, false⟩ : LazyCell Source).get_or_init witnessHashErr
        (.error (.notFound "a.typ")) witnessTf).cell.fingerprint =
          witnessHashErr (.error (.notFound "a.typ")) ∧
     ((⟨none, 0, false⟩ : LazyCell Source).get_or_init witnessHashErr
        (.error (.notFound "a.typ")) witnessTf).transformCalls = []) ∧
    (((⟨some (.error (.notFound "a.typ")),
        witnessHashErr (.error (.notFound "a.typ")), false⟩ : LazyCell Source).get_or_init
          witnessHashErr (.error (.notFound "a.typ")) witnessTf) =
      ⟨.error (.notFound "a.typ"),
        ⟨some (.error (.notFound "a.typ")),
          witnessHashErr (.error (.notFound "a.typ")), true⟩, true, []⟩) ∧
    (∀ bytes : List Nat,
      witnessHashErr (.error (.notFound "a.typ")) ≠ witnessHashErr (.ok bytes) →
      ((⟨some (.error (.notFound "a.typ")),
          witnessHashErr (.error (.notFound "a.typ")), false⟩ : LazyCell Source).get_or_init
            witnessHashErr (.ok bytes) witnessTf).transformCalls = [(bytes, none)]) ∧
    (∀ (c2 : LazyCell Source) (load2 : FileRes (List Nat))
        (tf3 : List Nat → Option Source → FileRes Source),
      ∀ call ∈ (c2.get_or_init witnessHashErr load2 tf3).transformCalls,
        call.2 = Option.bind c2.data resultOk) ∧
    (∀ e2 : FileErr,
      Option.bind (some (.error e2) : Option (FileRes Source)) resultOk = none) ∧
    (∀ v : Source,
      Option.bind (some (.ok v) : Option (FileRes Source)) resultOk = some v) :=
  lazycell_error_cached (⟨none, 0, false⟩ : LazyCell Source) witnessHashErr
    witnessTf witnessTf (.notFound "a.typ") rfl (by decide)

/-- C5: `prepare_package` resolves in a fixed order — the data-directory
subpath wins when it exists (never re-downloaded); else the
cache-directory subpath; else a download is attempted only when the
namespace is `preview`; any other namespace with no local copy yields
`NotFound` with no network access ever attempted. -/
theorem prepare_package_resolution (spec : PackageSpec) (env : PkgEnv) :
    (∀ d, env.dataDir = some d → env.dirExists (d ++ subdirOf spec) = true →
      prepare_package spec env = ⟨.ok (d ++ subdirOf spec), false⟩) ∧
    ((∀ d, env.dataDir = some d → env.dirExists (d ++ subdirOf spec) = false) →
      ∀ cd, env.cacheDir = some cd → env.dirExists (cd ++ subdirOf spec) = true →
      prepare_package spec env = ⟨.ok (cd ++ subdirOf spec), false⟩) ∧
    ((∀ d, env.dataDir = some d → env.dirExists (d ++ subdirOf spec) = false) →
      (∀ cd, env.cacheDir = some cd → env.dirExists (cd ++ subdirOf spec) = false) →
      spec.ns ≠ "preview" →
      prepare_package spec env = ⟨.error (.notFound spec), false⟩) ∧
    ((∀ d, env.dataDir = some d → env.dirExists (d ++ subdirOf spec) = false) →
      ∀ cd, env.cacheDir = some cd → env.dirExists (cd ++ subdirOf spec) = false →
      spec.ns = "preview" →
      (prepare_package spec env).network = true) := by
  rcases env with ⟨dd, cdd, ex, oc⟩
  dsimp only
  refine ⟨?_, ?_, ?_, ?_⟩
  · intro d hd he
    subst hd
    simp [prepare_package, he]
  · intro hmiss cd hc he
    subst hc
    cases dd with
    | none => simp [prepare_package, he]
    | some d =>
      have hd := hmiss d rfl
      simp [prepare_package, hd, he]
  · intro hmiss hcm hns
    cases dd with
    | none =>
      cases cdd with
      | none => simp [prepare_package]
      | some cd =>
        have hc := hcm cd rfl
        simp [prepare_package, hc, hns]
    | some d =>
      have hd := hmiss d rfl
      cases cdd with
      | none => simp [prepare_package, hd]
      | some cd =>
        have hc := hcm cd rfl
        simp [prepare_package, hd, hc, hns]
  · intro hmiss cd hc he hns
    subst hc
    cases dd with
    | none =>
      cases oc <;> simp [prepare_package, he, hns, download_package, dirExistsAfter]
    | some d =>
      have hd := hmiss d rfl
      cases oc <;> simp [prepare_package, hd, he, hns, download_package, dirExistsAfter]

theorem prepare_package_resolution_witness :
    (∀ d, witnessPkgEnv.dataDir = some d →
      witnessPkgEnv.dirExists (d ++ subdirOf witnessSpec) = true →
      prepare_package witnessSpec witnessPkgEnv =
        ⟨.ok (d ++ subdirOf witnessSpec), false⟩) ∧
    ((∀ d, witnessPkgEnv.dataDir = some d →
        witnessPkgEnv.dirExists (d ++ subdirOf witnessSpec) = false) →
      ∀ cd, witnessPkgEnv.cacheDir = some cd →
      witnessPkgEnv.dirExists (cd ++ subdirOf witnessSpec) = true →
      prepare_package witnessSpec witnessPkgEnv =
        ⟨.ok (cd ++ subdirOf witnessSpec), false⟩) ∧
    ((∀ d, witnessPkgEnv.dataDir = some d →
        witnessPkgEnv.dirExists (d ++ subdirOf witnessSpec) = false) →
      (∀ cd, witnessPkgEnv.cacheDir = some cd →
        witnessPkgEnv.dirExists (cd ++ subdirOf witnessSpec) = false) →
      witnessSpec.ns ≠ "preview" →
      prepare_package witnessSpec witnessPkgEnv =
        ⟨.error (.notFound witnessSpec), false⟩) ∧
    ((∀ d, witnessPkgEnv.dataDir = some d →
        witnessPkgEnv.dirExists (d ++ subdirOf witnessSpec) = false) →
      ∀ cd, witnessPkgEnv.cacheDir = some cd →
      witnessPkgEnv.dirExists (cd ++ subdirOf witnessSpec) = false →
      witnessSpec.ns = "preview" →
      (prepare_package witnessSpec witnessPkgEnv).network = true) :=
  prepare_package_resolution witnessSpec witnessPkgEnv

/-- C6: during a download, HTTP 404 maps to `NotFound`, any other
transport failure (including a body-read failure) maps to
`NetworkFailed`, and an unpack failure deletes the partially written
package directory before returning `MalformedArchive` — from any prior
directory state, nothing is left on disk; a successful unpack leaves
the directory in place. -/
theorem download_package_error_mapping (spec : PackageSpec) (msg : String) :
    download_package spec .httpStatus404 = (.error (.notFound spec), []) ∧
    download_package spec (.httpOtherError msg) = (.error (.networkFailed msg), []) ∧
    download_package spec (.bodyReadError msg) = (.error (.networkFailed msg), []) ∧
    (download_package spec (.unpackError msg)).1 = .error (.malformedArchive msg) ∧
    (∀ initial : Bool,
      dirExistsAfter initial (download_package spec (.unpackError msg)).2 = false) ∧
    dirExistsAfter false (download_package spec .unpackOk).2 = true :=
  ⟨rfl, rfl, rfl, rfl, fun b => by cases b <;> rfl, rfl⟩

theorem download_package_error_mapping_witness :
    download_package witnessSpec .httpStatus404 =
      (.error (.notFound witnessSpec), []) ∧
    download_package witnessSpec (.httpOtherError "boom") =
      (.error (.networkFailed "boom"), []) ∧
    download_package witnessSpec (.bodyReadError "boom") =
      (.error (.networkFailed "boom"), []) ∧
    (download_package witnessSpec (.unpackError "boom")).1 =
      .error (.malformedArchive "boom") ∧
    (∀ initial : Bool,
      dirExistsAfter initial (download_package witnessSpec (.unpackError "boom")).2 =
        false) ∧
    dirExistsAfter false (download_package witnessSpec .unpackOk).2 = true :=
  download_package_error_mapping witnessSpec "boom"

theorem insert_from_database_eq :
    ∀ (faces : List FontFace) (cache : FontCache),
      (∀ face ∈ faces, face.source ≠ .binary → face.data ≠ none) →
      FontCache.insert_from_database cache faces =
        .ok ⟨cache.book ++ acceptedInfos faces, cache.fonts ++ acceptedSlots faces⟩
  | [], cache, _ => by
    simp [FontCache.insert_from_database, acceptedInfos, acceptedSlots]
  | face :: rest, cache, h => by
    have hrest : ∀ f ∈ rest, f.source ≠ .binary → f.data ≠ none :=
      fun f hf => h f (List.mem_cons_of_mem _ hf)
    rcases face with ⟨src, idx, data⟩
    cases src with
    | binary =>
      simp only [FontCache.insert_from_database]
      rw [insert_from_database_eq rest cache hrest]
      simp [acceptedInfos, acceptedSlots, List.filterMap_cons]
    | file p =>
      cases data with
      | none =>
        exact absurd rfl
          (h ⟨.file p, idx, none⟩ (List.mem_cons_self _ _) (by simp))
      | some info =>
        cases info with
        | none =>
          simp only [FontCache.insert_from_database]
          rw [insert_from_database_eq rest cache hrest]
          simp [acceptedInfos, acceptedSlots, List.filterMap_cons]
        | some fi =>
          simp only [FontCache.insert_from_database]
          rw [insert_from_database_eq rest _ hrest]
          simp [acceptedInfos, acceptedSlots, List.filterMap_cons, List.append_assoc]
    | sharedFile p =>
      cases data with
      | none =>
        exact absurd rfl
          (h ⟨.sharedFile p, idx, none⟩ (List.mem_cons_self _ _) (by simp))
      | some info =>
        cases info with
        | none =>
          simp only [FontCache.insert_from_database]
          rw [insert_from_database_eq rest cache hrest]
          simp [acceptedInfos, acceptedSlots, List.filterMap_cons]
        | some fi =>
          simp only [FontCache.insert_from_database]
          rw [insert_from_database_eq rest _ hrest]
          simp [acceptedInfos, acceptedSlots, List.filterMap_cons, List.append_assoc]

theorem accepted_lengths :
    ∀ faces : List FontFace, (acceptedInfos faces).length = (acceptedSlots faces).length
  | [] => rfl
  | face :: rest => by
    rcases face with ⟨src, idx, data⟩
    have ih := accepted_lengths rest
    cases src with
    | binary => simpa [acceptedInfos, acceptedSlots, List.filterMap_cons] using ih
    | file p =>
      cases data with
      | none => simpa [acceptedInfos, acceptedSlots, List.filterMap_cons] using ih
      | some info =>
        cases info with
        | none => simpa [acceptedInfos, acceptedSlots, List.filterMap_cons] using ih
        | some fi => simpa [acceptedInfos, acceptedSlots, List.filterMap_cons] using ih
    | sharedFile p =>
      cases data with
      | none => simpa [acceptedInfos, acceptedSlots, List.filterMap_cons] using ih
      | some info =>
        cases info with
        | none => simpa [acceptedInfos, acceptedSlots, List.filterMap_cons] using ih
        | some fi => simpa [acceptedInfos, acceptedSlots, List.filterMap_cons] using ih

theorem acceptedSlots_unloaded (faces : List FontFace) :
    ∀ s ∈ acceptedSlots faces, s.font = none ∧ s.embedded = false := by
  intro s hs
  rcases List.mem_filterMap.1 hs with ⟨face, _, hf⟩
  rcases face with ⟨src, idx, data⟩
  cases src with
  | binary => simp at hf
  | file p =>
    cases data with
    | none => simp at hf
    | some info =>
      cases info with
      | none => simp at hf
      | some fi =>
        simp only [Option.some.injEq] at hf
        rw [← hf]
        exact ⟨rfl, rfl⟩
  | sharedFile p =>
    cases data with
    | none => simp at hf
    | some info =>
      cases info with
      | none => simp at hf
      | some fi =>
        simp only [Option.some.injEq] at hf
        rw [← hf]
        exact ⟨rfl, rfl⟩

/-- C7: font insertion is append-only — when no face fails to load, the
insert appends exactly one metadata record and one fresh unloaded slot
per accepted face after the existing entries, never replacing a slot;
in-memory binary faces are skipped outright; inserting the same face
twice therefore occupies two distinct new indices. -/
theorem insert_from_database_append_only (cache : FontCache)
    (faces : List FontFace)
    (h : ∀ face ∈ faces, face.source ≠ .binary → face.data ≠ none) :
    (FontCache.insert_from_database cache faces =
      .ok ⟨cache.book ++ acceptedInfos faces, cache.fonts ++ acceptedSlots faces⟩) ∧
    (acceptedInfos faces).length = (acceptedSlots faces).length ∧
    (∀ s ∈ acceptedSlots faces, s.font = none ∧ s.embedded = false) ∧
    (∀ face : FontFace, face.source = .binary →
      FontCache.insert_from_database cache (face :: faces) =
        FontCache.insert_from_database cache faces) := by
  refine ⟨insert_from_database_eq faces cache h, accepted_lengths faces,
    acceptedSlots_unloaded faces, ?_⟩
  intro face hbin
  rcases face with ⟨src, idx, data⟩
  simp only at hbin
  subst hbin
  rfl

theorem insert_from_database_append_only_witness :
    (FontCache.insert_from_database ⟨[], []⟩ [witnessFace, witnessFace] =
      .ok ⟨[] ++ acceptedInfos [witnessFace, witnessFace],
           [] ++ acceptedSlots [witnessFace, witnessFace]⟩) ∧
    (acceptedInfos [witnessFace, witnessFace]).length =
      (acceptedSlots [witnessFace, witnessFace]).length ∧
    (∀ s ∈ acceptedSlots [witnessFace, witnessFace],
      s.font = none ∧ s.embedded = false) ∧
    (∀ face : FontFace, face.source = .binary →
      FontCache.insert_from_database ⟨[], []⟩ (face :: [witnessFace, witnessFace]) =
        FontCache.insert_from_database ⟨[], []⟩ [witnessFace, witnessFace]) :=
  insert_from_database_append_only ⟨[], []⟩ [witnessFace, witnessFace] (by decide)

/-- `bookSelect` resolves to the first exact family/variant match:
the selected index matches and no earlier index does. -/
theorem bookSelect_first :
    ∀ (book : List FontInfo) (family : String) (variant : Nat) (idx : Nat),
      bookSelect book family variant = some idx →
      (∃ fi, book[idx]? = some fi ∧ lowerString fi.family = family ∧ fi.variant = variant) ∧
      (∀ j, j < idx → ∀ fi, book[j]? = some fi →
        ¬(lowerString fi.family = family ∧ fi.variant = variant))
  | [], _, _, idx, h => by simp [bookSelect] at h
  | fi0 :: rest, family, variant, idx, h => by
    by_cases hc : lowerString fi0.family = family ∧ fi0.variant = variant
    · rw [bookSelect, if_pos hc] at h
      have : idx = 0 := by
        have := Option.some.inj h
        omega
      subst this
      exact ⟨⟨fi0, by simp, hc⟩, fun j hj => by omega⟩
    · rw [bookSelect, if_neg hc] at h
      rcases Option.map_eq_some'.1 h with ⟨idx', hsel, hidx⟩
      subst hidx
      rcases bookSelect_first rest family variant idx' hsel with ⟨⟨fi, hfi, hmatch⟩, hlt⟩
      refine ⟨⟨fi, by simpa using hfi, hmatch⟩, ?_⟩
      intro j hj f hf
      cases j with
      | zero =>
        have : fi0 = f := by simpa using hf
        rw [← this]
        exact hc
      | succ j =>
        exact hlt j (by omega) f (by simpa using hf)

/-- C8: `update_cache` looks the decoded font's family/variant up in the
book; the selected index is the first matching one; if that slot's cell
was never initialized the font is installed there, every other slot
untouched; if the slot is already warm the whole registry is left
unchanged — first writer wins, update is never a replace. -/
theorem update_cache_first_writer (cache : FontCache) (font : Font)
    (idx : Nat) (slot : LazyFont)
    (hsel : bookSelect cache.book (lowerString font.info.family) font.info.variant = some idx)
    (hslot : cache.fonts[idx]? = some slot) :
    (slot.font = none →
      FontCache.update_cache cache font =
        { cache with
            fonts := cache.fonts.set idx { slot with font := some (some font) } }) ∧
    (slot.font ≠ none → FontCache.update_cache cache font = cache) ∧
    (∃ fi, cache.book[idx]? = some fi ∧
      lowerString fi.family = lowerString font.info.family ∧
      fi.variant = font.info.variant) ∧
    (∀ j, j < idx → ∀ fi, cache.book[j]? = some fi →
      ¬(lowerString fi.family = lowerString font.info.family ∧
        fi.variant = font.info.variant)) := by
  have hfirst := bookSelect_first cache.book (lowerString font.info.family)
    font.info.variant idx hsel
  refine ⟨?_, ?_, hfirst.1, hfirst.2⟩
  · intro hcold
    simp only [FontCache.update_cache, hsel, hslot, hcold]
  · intro hwarm
    rcases Option.ne_none_iff_exists'.1 hwarm with ⟨old, hold⟩
    simp only [FontCache.update_cache, hsel, hslot, hold]
    have hslot' : { slot with font := some old } = slot := by
      rcases slot with ⟨p, i, f, e⟩
      simp only at hold
      rw [hold]
    rw [hslot', set_eq_self_of_getElem? cache.fonts idx slot hslot]

theorem update_cache_first_writer_witness :
    ((⟨"/fonts/a.ttf", 0, none, false⟩ : LazyFont).font = none →
      FontCache.update_cache witnessColdCache witnessFont =
        { witnessColdCache with
            fonts := witnessColdCache.fonts.set 0
              { (⟨"/fonts/a.ttf", 0, none, false⟩ : LazyFont) with
                  font := some (some witnessFont) } }) ∧
    ((⟨"/fonts/a.ttf", 0, none, false⟩ : LazyFont).font ≠ none →
      FontCache.update_cache witnessColdCache witnessFont = witnessColdCache) ∧
    (∃ fi, witnessColdCache.book[0]? = some fi ∧
      lowerString fi.family = lowerString witnessFont.info.family ∧
      fi.variant = witnessFont.info.variant) ∧
    (∀ j, j < 0 → ∀ fi, witnessColdCache.book[j]? = some fi →
      ¬(lowerString fi.family = lowerString witnessFont.info.family ∧
        fi.variant = witnessFont.info.variant)) :=
  update_cache_first_writer witnessColdCache witnessFont 0
    ⟨"/fonts/a.ttf", 0, none, false⟩ (by decide) rfl

/-- C9 counterexample: `LazyFont`'s derived `Clone` clones the
`OnceLock<Option<Font>>` including an initialized value, so the slot
vector handed out by `get_book_and_fonts` does NOT always carry
not-yet-populated lazy cells — a warm global slot is handed out warm. -/
theorem get_book_and_fonts_not_cold :
    ¬ (∀ s ∈ (FontCache.get_book_and_fonts witnessWarmCache).2, s.font = none) := by
  decide

/-- C9 (amended): `get_book_and_fonts` returns a clone of the metadata
index and a clone of the slot vector for exclusive session use, where
cloning a slot duplicates its path, collection index, embedded flag and
its lazy-cell state at clone time — a still-cold slot's clone is cold
(and will re-resolve from disk independently on first use), while an
already-warm slot's clone carries the already-decoded font. -/
theorem get_book_and_fonts_clone (cache : FontCache) :
    FontCache.get_book_and_fonts cache = (cache.book, cache.fonts) ∧
    (∀ s : LazyFont, cloneLazyFont s = s) := by
  have hclone : cloneLazyFont = id := rfl
  constructor
  · unfold FontCache.get_book_and_fonts
    rw [hclone, List.map_id]
  · intro s
    rw [hclone]
    rfl

theorem get_book_and_fonts_clone_witness :
    FontCache.get_book_and_fonts witnessWarmCache =
      (witnessWarmCache.book, witnessWarmCache.fonts) ∧
    (∀ s : LazyFont, cloneLazyFont s = s) :=
  get_book_and_fonts_clone witnessWarmCache

/- ## C10: in-memory special casing of `Compiler::source` vs `Compiler::file` -/

theorem process_loadInvoked {T : Type} (cell2 : LazyCell T) (prev : Option T)
    (load : FileRes (List Nat)) (tf : List Nat → Option T → FileRes T) :
    (LazyCell.process cell2 prev load tf).loadInvoked = true := by
  cases load <;> rfl

theorem process_bytes_result (cell2 : LazyCell (List Nat)) (prev : Option (List Nat))
    (load : FileRes (List Nat)) :
    (LazyCell.process cell2 prev load (fun data _ => .ok data)).result = load := by
  cases load <;> rfl

/-- On a never-accessed empty cell, `get_or_init` always reaches the
recompute step. -/
theorem get_or_init_fresh {T : Type} (hash : FileRes (List Nat) → Nat)
    (load : FileRes (List Nat)) (tf : List Nat → Option T → FileRes T) :
    (LazyCell.new : LazyCell T).get_or_init hash load tf =
      LazyCell.process ⟨none, hash load, true⟩ none load tf := by
  simp only [LazyCell.new, LazyCell.get_or_init]
  split <;> rfl

theorem lookupSlot_updateSlot :
    ∀ (files : List (FileIdM × LazyFile)) (id : FileIdM) (lf : LazyFile),
      lookupSlot (updateSlot files id lf) id = some lf
  | [], id, lf => by simp [updateSlot, lookupSlot]
  | e :: rest, id, lf => by
    by_cases h : e.1 = id
    · simp [updateSlot, lookupSlot, h]
    · simp [updateSlot, lookupSlot, h, lookupSlot_updateSlot rest id lf]

/-- C10: for a file id whose virtual path text contains the reserved
in-memory marker, `Compiler::source` answers with a clone of the pinned
in-memory entry source, leaving the slot map untouched and reading
nothing from disk, while `Compiler::file` applies no such special case
for the very same id: it performs the ordinary slot lookup (inserting
the canonical slot into the map) and the filesystem read. -/
theorem compiler_source_in_memory_only (c : CompilerM) (env : WorldEnv)
    (id : FileIdM)
    (hmark : strContains id.vpath RESERVED_IN_MEMORY_IDENTIFIER = true)
    (hfresh : lookupSlot c.files id = none) :
    (Compiler.source c env id = ⟨.ok c.entry, c, false⟩) ∧
    ((Compiler.file c env id).loadInvoked = true) ∧
    ((Compiler.file c env id).result = env.loadOf id) ∧
    (lookupSlot (Compiler.file c env id).compiler.files id ≠ none) := by
  have hsrc : Compiler.source c env id = ⟨.ok c.entry, c, false⟩ := by
    simp [Compiler.source, hmark]
  have hfile : Compiler.file c env id =
      ⟨((LazyFile.new id).file env).result,
       { c with files := updateSlot c.files id ((LazyFile.new id).file env).slot },
       ((LazyFile.new id).file env).loadInvoked⟩ := by
    simp [Compiler.file, Compiler.slot, hfresh]
  have hcall : (LazyFile.new id).file env =
      ⟨(LazyCell.process ⟨none, env.hash (env.loadOf id), true⟩ none
          (env.loadOf id) (fun data _ => .ok data)).result,
       { LazyFile.new id with
           fileCell := (LazyCell.process ⟨none, env.hash (env.loadOf id), true⟩ none
             (env.loadOf id) (fun data _ => .ok data)).cell },
       (LazyCell.process ⟨none, env.hash (env.loadOf id), true⟩ none
          (env.loadOf id) (fun data _ => .ok data)).loadInvoked⟩ := by
    simp only [LazyFile.file, LazyFile.new, get_or_init_fresh]
  refine ⟨hsrc, ?_, ?_, ?_⟩
  · rw [hfile, hcall]
    exact process_loadInvoked _ _ _ _
  · rw [hfile, hcall]
    exact process_bytes_result _ _ _
  · rw [hfile]
    rw [lookupSlot_updateSlot]
    simp

theorem compiler_source_in_memory_only_witness :
    (Compiler.source witnessCompiler witnessWorldEnv witnessInMemId =
      ⟨.ok witnessCompiler.entry, witnessCompiler, false⟩) ∧
    ((Compiler.file witnessCompiler witnessWorldEnv witnessInMemId).loadInvoked = true) ∧
    ((Compiler.file witnessCompiler witnessWorldEnv witnessInMemId).result =
      witnessWorldEnv.loadOf witnessInMemId) ∧
    (lookupSlot (Compiler.file witnessCompiler witnessWorldEnv
        witnessInMemId).compiler.files witnessInMemId ≠ none) :=
  compiler_source_in_memory_only witnessCompiler witnessWorldEnv witnessInMemId
    (by decide) rfl

end TypstWrapper
